import Mathlib

/-!
Verification of the path-abstraction core of this repository (the `bp`
path library and the `l.project` VCS wrapper bundled with the
application) against its natural-language specification.

Paths and file names on the disk backend are byte strings; we embed them
as `List Char` (one `Char` per byte, the code only ever inspects ASCII
bytes).  The functions below are direct translations of the Python
source:

* `normpath`, `joinpath`, `abspath`, `dirnameP`, `basenameP` embed
  `posixpath.normpath` / `join` / `abspath` / `dirname` / `basename`
  exactly as CPython defines them for POSIX (the platform the
  application runs on, so `isWindows` is `False` and `os.sep` is `/`);
  `abspath` takes the process working directory as an explicit argument.
* `FilePath.child` embeds `FilePath.child` from `bp/filepath.py`
  (lines 265-306).  The Windows-only colon check is a dead branch on
  this platform and is omitted.
-/

/-- A byte-string path, one list element per byte. -/
abbrev PStr := List Char

/-- `"/" in s` for a byte string (the separator is a single byte). -/
def containsSlash (s : PStr) : Bool := s.contains '/'

/-- `posixpath.isabs`: the path begins with the separator. -/
def isabs (s : PStr) : Bool :=
  match s with
  | '/' :: _ => true
  | _ => false

/-- Python `s.split('/')` (always returns at least one component). -/
def splitSlash : PStr → List PStr
  | [] => [[]]
  | c :: rest =>
    let r := splitSlash rest
    if c = '/' then [] :: r
    else (c :: r.headD []) :: r.tail

/-- One step of `posixpath.normpath`'s component loop: skip empty and
`"."` components, keep a component unless it is a collapsible `".."`. -/
def normAddComp (initialSlashes : Nat) (acc : List PStr) (comp : PStr) : List PStr :=
  if comp = [] ∨ comp = ['.'] then acc
  else if comp ≠ ['.', '.'] ∨ (initialSlashes = 0 ∧ acc = []) ∨
      (acc ≠ [] ∧ acc.getLast? = some ['.', '.']) then acc ++ [comp]
  else if acc ≠ [] then acc.dropLast
  else acc

/-- `posixpath.normpath` for byte strings. -/
def normpath (p : PStr) : PStr :=
  if p = [] then ['.']
  else
    let initialSlashes : Nat :=
      if p.take 1 = ['/'] then
        if p.take 2 = ['/', '/'] ∧ p.take 3 ≠ ['/', '/', '/'] then 2 else 1
      else 0
    let comps := (splitSlash p).foldl (normAddComp initialSlashes) []
    let joined := List.intercalate ['/'] comps
    let result := List.replicate initialSlashes '/' ++ joined
    if result = [] then ['.'] else result

/-- `posixpath.join` for two components. -/
def joinpath (a b : PStr) : PStr :=
  if isabs b then b
  else if a = [] ∨ a.getLast? = some '/' then a ++ b
  else a ++ '/' :: b

/-- `posixpath.abspath`, with the working directory as a parameter. -/
def abspath (cwd p : PStr) : PStr :=
  if isabs p then normpath p else normpath (joinpath cwd p)

/-- `posixpath.basename`: everything after the final separator. -/
def basenameP (p : PStr) : PStr :=
  (p.reverse.takeWhile (fun c => c ≠ '/')).reverse

/-- `posixpath.dirname`: everything up to the final separator, with
trailing separators stripped unless the result is all separators. -/
def dirnameP (p : PStr) : PStr :=
  let head := (p.reverse.dropWhile (fun c => c ≠ '/')).reverse
  if head ≠ [] ∧ head.any (fun c => c ≠ '/') then
    (head.reverse.dropWhile (fun c => c = '/')).reverse
  else head

/-- The three ways `FilePath.child` raises `InsecurePath` on POSIX. -/
inductive InsecurePath where
  | containsSep
  | normContainsSep
  | notAChild
deriving DecidableEq

/-- Whether an `Except` is in the error state. -/
def Except.isErr {ε α : Type} : Except ε α → Bool
  | .error _ => true
  | .ok _ => false

deriving instance DecidableEq for Except

@[simp]
theorem Except.isErr_error {ε α : Type} (e : ε) :
    (Except.error e : Except ε α).isErr = true := rfl

@[simp]
theorem Except.isErr_ok {ε α : Type} (a : α) :
    (Except.ok a : Except ε α).isErr = false := rfl

namespace FilePath

/-- `bp.filepath.FilePath.child` (disk backend).  `p` is the owning
path's `path` attribute, `cwd` the process working directory used by
`abspath`, `name` the requested child name.  The Windows-only colon
check is skipped because `isWindows` is false on this platform. -/
def child (cwd p name : PStr) : Except InsecurePath PStr :=
  if containsSlash name then .error .containsSep
  else
    let norm := normpath name
    if containsSlash norm then .error .normContainsSep
    else
      let newpath := abspath cwd (joinpath p norm)
      if newpath = p ∨ ¬ (p.isPrefixOf newpath = true) then .error .notAChild
      else .ok newpath

/-- `FilePath.parent`: `clonePath(dirname(path))`, and the `FilePath`
constructor normalises with `abspath`. -/
def parent (cwd p : PStr) : PStr :=
  abspath cwd (dirnameP p)

end FilePath

/-- C1: on the disk backend, `child` raises the containment error
whenever the name contains the separator before or after
normalization, or the normalized absolute join equals the parent path
or does not begin with it; `child("../x")` and `child("a/b")` always
fail; and a successful `child` always returns a path that begins with
the parent's path and differs from it (inside the parent's subtree). -/
theorem child_rejects_escapes (cwd p name : PStr) :
    ((containsSlash name = true ∨ containsSlash (normpath name) = true ∨
        abspath cwd (joinpath p (normpath name)) = p ∨
        p.isPrefixOf (abspath cwd (joinpath p (normpath name))) = false) →
      (FilePath.child cwd p name).isErr = true)
    ∧ (FilePath.child cwd p ("../x".toList)).isErr = true
    ∧ (FilePath.child cwd p ("a/b".toList)).isErr = true
    ∧ (∀ q, FilePath.child cwd p name = .ok q →
        p.isPrefixOf q = true ∧ q ≠ p) := by
  refine ⟨?_, ?_, ?_, ?_⟩
  · intro h
    unfold FilePath.child
    rcases h with h | h | h | h
    · simp [h]
    · by_cases hc : containsSlash name
      · simp [hc]
      · simp [hc, h]
    · by_cases hc : containsSlash name
      · simp [hc]
      · by_cases hn : containsSlash (normpath name)
        · simp [hc, hn]
        · simp [hc, hn, h]
    · by_cases hc : containsSlash name
      · simp [hc]
      · by_cases hn : containsSlash (normpath name)
        · simp [hc, hn]
        · simp only [hc, hn, Bool.false_eq_true, if_false]
          rw [if_pos]
          · rfl
          · exact Or.inr (by simp [h])
  · unfold FilePath.child
    rw [if_pos (by decide)]
    rfl
  · unfold FilePath.child
    rw [if_pos (by decide)]
    rfl
  · intro q hq
    unfold FilePath.child at hq
    by_cases hc : containsSlash name
    · simp [hc] at hq
    · by_cases hn : containsSlash (normpath name)
      · simp [hc, hn] at hq
      · simp only [hc, hn, Bool.false_eq_true, if_false] at hq
        by_cases hrej : abspath cwd (joinpath p (normpath name)) = p ∨
            ¬ ((p.isPrefixOf (abspath cwd (joinpath p (normpath name)))) = true)
        · rw [if_pos hrej] at hq
          exact absurd hq (by simp)
        · rw [if_neg hrej] at hq
          push_neg at hrej
          cases hq
          exact ⟨hrej.2, hrej.1⟩

/-- Witness for `child_rejects_escapes` at a concrete parent, name and
working directory. -/
theorem child_rejects_escapes_witness :
    (FilePath.child [] ("/base".toList) ("../x".toList)).isErr = true
    ∧ FilePath.child [] ("/base".toList) ("ok".toList) = .ok ("/base/ok".toList)
    ∧ ("/base".toList).isPrefixOf ("/base/ok".toList) = true
    ∧ ("/base/ok".toList) ≠ ("/base".toList) := by
  refine ⟨(child_rejects_escapes [] ("/base".toList) ("../x".toList)).1
    (Or.inl (by decide)), by decide, ?_⟩
  exact (child_rejects_escapes [] ("/base".toList) ("ok".toList)).2.2.2
    ("/base/ok".toList) (by decide)

/-!
## Stores as association lists

Python dictionaries (the in-memory store, the zip archive's entry
table, and the disk contents seen through `open`/`rename`) are embedded
as association lists with first-match lookup; inserting a key replaces
any previous binding.
-/

/-- Dictionary lookup. -/
def lookupA {κ ν : Type} [DecidableEq κ] : List (κ × ν) → κ → Option ν
  | [], _ => none
  | kv :: rest, k => if kv.1 = k then some kv.2 else lookupA rest k

/-- Remove every binding of a key. -/
def eraseA {κ ν : Type} [DecidableEq κ] (l : List (κ × ν)) (k : κ) : List (κ × ν) :=
  l.filter (fun kv => decide (kv.1 ≠ k))

/-- Dictionary store: `d[k] = v`. -/
def insertA {κ ν : Type} [DecidableEq κ] (l : List (κ × ν)) (k : κ) (v : ν) :
    List (κ × ν) :=
  (k, v) :: eraseA l k

theorem lookupA_insertA {κ ν : Type} [DecidableEq κ] (l : List (κ × ν)) (k : κ) (v : ν) :
    lookupA (insertA l k v) k = some v := by
  simp [insertA, lookupA]

/-!
## Disk content replacement (`bp/filepath.py`, `setContent`)

The visible state of the directory holding the paths is a dictionary
from absolute path to content.  `setContent` writes the new content to
a temporary sibling named `<token><basename><ext>` (the token is the
16-byte random string of `temporarySibling`, passed here as a
parameter), opened with `O_EXCL` (so it fails if the sibling already
exists), then renames the sibling onto the target; the Windows-only
pre-unlink is dead code on this platform.  `getContent` is
`genericGetContent`: open for reading and read everything, failing when
the path does not exist.
-/

/-- `FilePath.setContent` (disk backend): returns the updated directory
contents, or `none` where the Python code raises. -/
def diskSetContent (cwd : PStr) (store : List (PStr × PStr)) (p content token ext : PStr) :
    Option (List (PStr × PStr)) :=
  match FilePath.child cwd (FilePath.parent cwd p) (token ++ basenameP p ++ ext) with
  | .error _ => none
  | .ok sib =>
    if (lookupA store sib).isSome then none
    else
      let afterWrite := insertA store sib content
      some (insertA (eraseA afterWrite sib) p content)

/-- `genericGetContent` over the disk state. -/
def diskGetContent (store : List (PStr × PStr)) (p : PStr) : Option PStr :=
  lookupA store p

/-!
## The in-memory backend (`bp/memory.py`)
-/

/-- `MemoryFS`: a shared store from segment tuple to content, plus the
set of segment tuples registered as directories. -/
structure MemoryFS where
  store : List (List String × PStr)
  dirs : List (List String)
deriving DecidableEq

/-- `MemoryFile`: a buffered handle that commits its buffer to the
store on close. -/
structure MemoryFile where
  key : List String
  buf : PStr
deriving DecidableEq

/-- `MemoryFS.open`: directories cannot be opened; an existing file's
content seeds the buffer; a missing key yields an empty buffer. -/
def MemoryFS.openFS (fs : MemoryFS) (path : List String) : Option MemoryFile :=
  if path ∈ fs.dirs then none
  else
    match lookupA fs.store path with
    | some buf => some ⟨path, buf⟩
    | none => some ⟨path, []⟩

/-- `MemoryFile.close`: commit the full buffer into the store under the
handle's key. -/
def MemoryFile.close (f : MemoryFile) (fs : MemoryFS) : MemoryFS :=
  { fs with store := insertA fs.store f.key f.buf }

/-- `MemoryPath.open`: delegates to the store, ignoring the mode. -/
def MemoryPath.open (fs : MemoryFS) (path : List String) (mode : PStr) : Option MemoryFile :=
  fs.openFS path

/-- `MemoryPath.isfile`: key present in the store. -/
def MemoryPath.isfile (fs : MemoryFS) (path : List String) : Bool :=
  (lookupA fs.store path).isSome

/-- `MemoryPath.getContent`: direct dictionary access (`KeyError`
becomes `none`). -/
def MemoryPath.getContent (fs : MemoryFS) (path : List String) : Option PStr :=
  lookupA fs.store path

/-- `MemoryPath.setContent`: direct dictionary store. -/
def MemoryPath.setContent (fs : MemoryFS) (path : List String) (content : PStr) : MemoryFS :=
  { fs with store := insertA fs.store path content }

/-- `MemoryPath.createDirectory`: add the key to the directory set. -/
def MemoryPath.createDirectory (fs : MemoryFS) (path : List String) : MemoryFS :=
  { fs with dirs := path :: fs.dirs }

/-!
## The zip backend's content operations (`bp/zippath.py`)

The archive handle is its entry table; `writestr` binds a name to new
content, `read` looks a name up.
-/

/-- `ZipPath.setContent`: `zipfile.writestr(pathInArchive, content)`. -/
def ZipPath.setContent (zf : List (PStr × PStr)) (name content : PStr) : List (PStr × PStr) :=
  insertA zf name content

/-- `ZipPath.getContent`: `zipfile.read(pathInArchive)`. -/
def ZipPath.getContent (zf : List (PStr × PStr)) (name : PStr) : Option PStr :=
  lookupA zf name

/-- C6: on every mutation-capable backend (disk, archive, memory) a
successful `setContent(b)` followed by `getContent()` returns exactly
`b`. -/
theorem setContent_getContent_roundtrip :
    (∀ (cwd : PStr) (store : List (PStr × PStr)) (p b token ext : PStr)
        (st' : List (PStr × PStr)), diskSetContent cwd store p b token ext = some st' →
        diskGetContent st' p = some b)
    ∧ (∀ (fs : MemoryFS) (path : List String) (b : PStr),
        MemoryPath.getContent (MemoryPath.setContent fs path b) path = some b)
    ∧ (∀ (zf : List (PStr × PStr)) (name b : PStr),
        ZipPath.getContent (ZipPath.setContent zf name b) name = some b) := by
  refine ⟨?_, ?_, ?_⟩
  · intro cwd store p b token ext st' h
    unfold diskSetContent at h
    split at h
    · exact absurd h (by simp)
    · split at h
      · exact absurd h (by simp)
      · simp only [Option.some.injEq] at h
        subst h
        exact lookupA_insertA _ _ _
  · intro fs path b
    exact lookupA_insertA _ _ _
  · intro zf name b
    exact lookupA_insertA _ _ _

/-- Witness for `setContent_getContent_roundtrip`: one concrete
successful write-then-read on each backend. -/
theorem setContent_getContent_roundtrip_witness :
    diskSetContent [] [] ("/d/f".toList) ("hi".toList) ("T".toList) (".new".toList) =
      some [(("/d/f".toList), ("hi".toList))]
    ∧ diskGetContent [(("/d/f".toList), ("hi".toList))] ("/d/f".toList) = some ("hi".toList)
    ∧ MemoryPath.getContent
        (MemoryPath.setContent ⟨[], []⟩ ["d", "f"] ("v".toList)) ["d", "f"] = some ("v".toList)
    ∧ ZipPath.getContent
        (ZipPath.setContent [] ("a/b.txt".toList) ("hi".toList)) ("a/b.txt".toList) =
        some ("hi".toList) := by
  refine ⟨by decide, ?_, ?_, ?_⟩
  · exact setContent_getContent_roundtrip.1 [] [] ("/d/f".toList) ("hi".toList)
      ("T".toList) (".new".toList) _ (by decide)
  · exact setContent_getContent_roundtrip.2.1 ⟨[], []⟩ ["d", "f"] ("v".toList)
  · exact setContent_getContent_roundtrip.2.2 [] ("a/b.txt".toList) ("hi".toList)

/-!
## Write rejection (`bp/readonly.py`, `bp/iso.py`)
-/

/-- Modelled from the spec: `bp/util.py` (providing `modeIsWriting`,
imported by `bp/readonly.py` and `bp/iso.py`) is not among the sources.
The spec requires `open` to fail for "a write mode"; a mode string
requests writing when it contains `w` (truncate), `a` (append) or `+`
(update). -/
def modeIsWriting (mode : PStr) : Bool :=
  mode.contains 'w' || mode.contains 'a' || mode.contains '+'

/-- `ReadOnlyPath.open`: rejects writing modes, otherwise delegates to
the wrapped path, whose behaviour is the parameter `wrappedOpen`. -/
def ReadOnlyPath.openRO {β : Type} (wrappedOpen : PStr → β) (mode : PStr) :
    Except String β :=
  if modeIsWriting mode then .error "Path is read-only" else .ok (wrappedOpen mode)

/-- `ReadOnlyPath.createDirectory`: unconditional failure. -/
def ReadOnlyPath.createDirectory : Except String Unit :=
  .error "Path is read-only"

/-- `ReadOnlyPath.setContent`: unconditional failure (content and
temporary-suffix arguments are never consulted). -/
def ReadOnlyPath.setContent (content ext : PStr) : Except String Unit :=
  .error "Path is read-only"

/-- `ISOPath.open`: rejects writing modes, otherwise wraps the result
of `getContent` (passed here as the parameter `getC`; `none` when the
record does not exist, in which case `getContent` raises). -/
def ISOPath.openISO (getC : Option PStr) (mode : PStr) : Except String PStr :=
  if modeIsWriting mode then .error "ISOs are read-only"
  else
    match getC with
    | some data => .ok data
    | none => .error "I do not exist"

/-- `ISOPath.createDirectory`: unconditional failure. -/
def ISOPath.createDirectory : Except String Unit :=
  .error "ISOs are read-only"

/-- `ISOPath.setContent`: unconditional failure. -/
def ISOPath.setContent (content ext : PStr) : Except String Unit :=
  .error "ISOs are read-only"

/-- C7: on the read-only adapter and the optical-image backend, every
write attempt (`open` with a writing mode, `createDirectory`,
`setContent`) fails with the backend's dedicated read-only error,
independent of the path, the arguments, and of what the wrapped
backend would do. -/
theorem write_ops_rejected :
    (∀ (β : Type) (wrappedOpen : PStr → β) (mode : PStr), modeIsWriting mode = true →
      ReadOnlyPath.openRO wrappedOpen mode = .error "Path is read-only")
    ∧ ReadOnlyPath.createDirectory = .error "Path is read-only"
    ∧ (∀ content ext, ReadOnlyPath.setContent content ext = .error "Path is read-only")
    ∧ (∀ (getC : Option PStr) (mode : PStr), modeIsWriting mode = true →
      ISOPath.openISO getC mode = .error "ISOs are read-only")
    ∧ ISOPath.createDirectory = .error "ISOs are read-only"
    ∧ (∀ content ext, ISOPath.setContent content ext = .error "ISOs are read-only") := by
  refine ⟨?_, rfl, fun _ _ => rfl, ?_, rfl, fun _ _ => rfl⟩
  · intro β wrappedOpen mode h
    unfold ReadOnlyPath.openRO
    rw [if_pos h]
  · intro getC mode h
    unfold ISOPath.openISO
    rw [if_pos h]

/-- Witness for `write_ops_rejected` at the mode `"w"` on both
backends. -/
theorem write_ops_rejected_witness :
    ReadOnlyPath.openRO (fun (_ : PStr) => ()) ("w".toList) = .error "Path is read-only"
    ∧ ISOPath.openISO (some ("data".toList)) ("w".toList) = .error "ISOs are read-only" :=
  ⟨write_ops_rejected.1 Unit (fun _ => ()) ("w".toList) (by decide),
    write_ops_rejected.2.2.2.1 (some ("data".toList)) ("w".toList) (by decide)⟩

/-- C10: in-memory `open` ignores the mode and never fails on a
non-directory path; `close` always commits the handle's buffer under
its key; so opening a non-existent path with mode `"r"` and closing
immediately creates an empty file there. -/
theorem memory_open_close_creates :
    (∀ (fs : MemoryFS) (p : List String) (m m' : PStr),
      MemoryPath.open fs p m = MemoryPath.open fs p m')
    ∧ (∀ (fs : MemoryFS) (p : List String) (m : PStr), p ∉ fs.dirs →
      (MemoryPath.open fs p m).isSome = true)
    ∧ (∀ (fs : MemoryFS) (key : List String) (buf : PStr),
      lookupA (MemoryFile.close ⟨key, buf⟩ fs).store key = some buf)
    ∧ (∀ (fs : MemoryFS) (p : List String) (m : PStr) (h : MemoryFile),
      p ∉ fs.dirs → lookupA fs.store p = none →
      MemoryPath.open fs p m = some h →
      MemoryPath.isfile (MemoryFile.close h fs) p = true
      ∧ MemoryPath.getContent (MemoryFile.close h fs) p = some []) := by
  refine ⟨fun _ _ _ _ => rfl, ?_, ?_, ?_⟩
  · intro fs p m hp
    unfold MemoryPath.open MemoryFS.openFS
    rw [if_neg hp]
    cases lookupA fs.store p <;> simp
  · intro fs key buf
    exact lookupA_insertA _ _ _
  · intro fs p m h hp hmiss hopen
    unfold MemoryPath.open MemoryFS.openFS at hopen
    rw [if_neg hp, hmiss] at hopen
    simp only [Option.some.injEq] at hopen
    subst hopen
    constructor
    · unfold MemoryPath.isfile MemoryFile.close
      simp [lookupA_insertA]
    · unfold MemoryPath.getContent MemoryFile.close
      exact lookupA_insertA _ _ _

/-- Witness for `memory_open_close_creates`: a fresh store, the path
`["d"]`, mode `"r"`. -/
theorem memory_open_close_creates_witness :
    MemoryPath.open ⟨[], []⟩ ["d"] ("r".toList) = some ⟨["d"], []⟩
    ∧ MemoryPath.isfile (MemoryFile.close ⟨["d"], []⟩ ⟨[], []⟩) ["d"] = true
    ∧ MemoryPath.getContent (MemoryFile.close ⟨["d"], []⟩ ⟨[], []⟩) ["d"] = some [] := by
  refine ⟨by decide, ?_⟩
  have := memory_open_close_creates.2.2.2 ⟨[], []⟩ ["d"] ("r".toList) ⟨["d"], []⟩
    (by decide) (by decide) (by decide)
  exact this

/-!
## Memory-backed navigation and the generic segment algorithms
(`bp/memory.py`, `bp/generic.py`)
-/

/-- A `MemoryPath` value: the identity of the backing `MemoryFS` plus
the segment tuple.  Equality is structural over both, exactly as
`MemoryPath.__eq__` compares `_fs` and `_path`. -/
structure MemPath where
  fs : Nat
  segs : List String
deriving DecidableEq

/-- `MemoryPath.parent`: drop the last segment; the root is its own
parent. -/
def MemPath.parent (p : MemPath) : MemPath :=
  if p.segs = [] then p else ⟨p.fs, p.segs.dropLast⟩

/-- `MemoryPath.child`: append one segment. -/
def MemPath.child (p : MemPath) (name : String) : MemPath :=
  ⟨p.fs, p.segs ++ [name]⟩

/-- `MemoryPath.basename`: the last segment, or `""` at the root. -/
def MemPath.basename (p : MemPath) : String :=
  p.segs.getLastD ""

/-- `genericDescendant`: repeated `child()` application, left to
right. -/
def genericDescendant (p : MemPath) (segments : List String) : MemPath :=
  segments.foldl MemPath.child p

/-- The loop of `genericSegmentsFrom`: `f` walks upward, `p` is
`f.parent()`, `segments` accumulates basenames in leaf-to-root order,
to be reversed on success.  The fuel only models the unbounded Python
loop; every theorem supplies enough of it. -/
def segFromGo : Nat → MemPath → MemPath → MemPath → List String → Except String (List String)
  | 0, _, _, _, _ => .error "fuel"
  | fuel + 1, ancestor, f, p, segments =>
    if f ≠ ancestor ∧ f ≠ p then
      segFromGo fuel ancestor p p.parent (segments ++ [f.basename])
    else if f = ancestor ∧ segments ≠ [] then .ok segments.reverse
    else .error "not parent"

/-- `genericSegmentsFrom(path, ancestor)`. -/
def genericSegmentsFrom (fuel : Nat) (path ancestor : MemPath) : Except String (List String) :=
  segFromGo fuel ancestor path path.parent []

theorem genericDescendant_eq (a : MemPath) (segs : List String) :
    genericDescendant a segs = ⟨a.fs, a.segs ++ segs⟩ := by
  induction segs generalizing a with
  | nil => simp [genericDescendant]
  | cons x xs ih =>
    show genericDescendant (a.child x) xs = _
    rw [ih]
    simp [MemPath.child]

theorem segFromGo_ok (a : MemPath) :
    ∀ (fuel : Nat) (s acc : List String), s.length < fuel → acc ++ s.reverse ≠ [] →
      segFromGo fuel a ⟨a.fs, a.segs ++ s⟩ (MemPath.parent ⟨a.fs, a.segs ++ s⟩) acc =
        .ok (s ++ acc.reverse) := by
  intro fuel
  induction fuel with
  | zero => intro s acc h; omega
  | succ fuel ih =>
    intro s acc hlen hne
    rcases s.eq_nil_or_concat with rfl | ⟨s', x, rfl⟩
    · simp only [List.append_nil] at *
      show segFromGo (fuel + 1) a a a.parent acc = _
      unfold segFromGo
      rw [if_neg (by simp)]
      rw [if_pos ⟨rfl, by simpa using hne⟩]
      simp
    · simp only [List.concat_eq_append] at hlen hne ⊢
      have hf : (⟨a.fs, a.segs ++ (s' ++ [x])⟩ : MemPath) ≠ a := by
        intro hcon
        have h2 : a.segs ++ (s' ++ [x]) = a.segs := congrArg MemPath.segs hcon
        have h3 := congrArg List.length h2
        simp only [List.length_append, List.length_cons, List.length_nil] at h3
        omega
      have hsegs : a.segs ++ (s' ++ [x]) ≠ [] := by simp
      have hp : (⟨a.fs, a.segs ++ (s' ++ [x])⟩ : MemPath) ≠
          MemPath.parent ⟨a.fs, a.segs ++ (s' ++ [x])⟩ := by
        unfold MemPath.parent
        rw [if_neg (by simpa using hsegs)]
        intro hcon
        have h2 : a.segs ++ (s' ++ [x]) = (a.segs ++ (s' ++ [x])).dropLast :=
          congrArg MemPath.segs hcon
        have h3 := congrArg List.length h2
        rw [List.length_dropLast] at h3
        simp only [List.length_append, List.length_cons, List.length_nil] at h3
        omega
      have hparent : MemPath.parent ⟨a.fs, a.segs ++ (s' ++ [x])⟩ =
          ⟨a.fs, a.segs ++ s'⟩ := by
        unfold MemPath.parent
        rw [if_neg (by simpa using hsegs)]
        simp [← List.append_assoc]
      have hbase : MemPath.basename ⟨a.fs, a.segs ++ (s' ++ [x])⟩ = x := by
        unfold MemPath.basename
        show (a.segs ++ (s' ++ [x])).getLastD "" = x
        rw [← List.append_assoc]
        exact List.getLastD_concat _ _ _
      unfold segFromGo
      rw [if_pos ⟨hf, hp⟩, hparent, hbase]
      have := ih s' (acc ++ [x]) (by simp at hlen ⊢; omega) (by simp)
      rw [this]
      simp

theorem segFromGo_fail (a : MemPath) :
    ∀ (fuel : Nat) (p : MemPath) (acc : List String), p.segs.length < fuel →
      ¬ (a.fs = p.fs ∧ a.segs <+: p.segs) →
      segFromGo fuel a p p.parent acc = .error "not parent" := by
  intro fuel
  induction fuel with
  | zero => intro p acc h; omega
  | succ fuel ih =>
    intro p acc hlen hnp
    have hfa : p ≠ a := by
      intro hcon
      exact hnp ⟨by rw [hcon], by rw [hcon]⟩
    rcases p.segs.eq_nil_or_concat with hnil | ⟨s', x, hcat⟩
    swap
    · simp only [List.concat_eq_append] at hcat
      have hparent : p.parent = ⟨p.fs, s'⟩ := by
        unfold MemPath.parent
        rw [if_neg (by simp [hcat])]
        rw [hcat]
        simp
      have hne : p ≠ p.parent := by
        rw [hparent]
        intro hcon
        have h2 := congrArg (fun q : MemPath => q.segs.length) hcon
        simp only [hcat] at h2
        simp only [List.length_append, List.length_cons, List.length_nil] at h2
        omega
      unfold segFromGo
      rw [if_pos ⟨hfa, hne⟩, hparent]
      have hrec := ih ⟨p.fs, s'⟩ (acc ++ [p.basename])
        (by simp only; rw [hcat] at hlen;
            simp only [List.length_append, List.length_cons, List.length_nil] at hlen; omega)
        ?hpre
      case hpre =>
        intro hcon
        refine hnp ⟨hcon.1, ?_⟩
        rw [hcat]
        exact List.IsPrefix.trans hcon.2 (List.prefix_append s' [x])
      exact hrec
    · unfold segFromGo
      rw [if_neg ?hstep]
      case hstep =>
        intro hcon
        exact hcon.2 (by unfold MemPath.parent; rw [if_pos hnil])
      rw [if_neg (by intro hcon; exact hfa hcon.1)]

/-- C8: for every memory path reachable from `ancestor` by at least one
`child()` application, `segmentsFrom` returns exactly the applied
segments (root-to-leaf), so `descendant(ancestor, segmentsFrom(...))`
reproduces the path; and when the ancestor does not lie on the upward
`parent()` chain (so the walk hits the root fixed point without
matching), `segmentsFrom` fails with the not-an-ancestor error. -/
theorem descendant_segmentsFrom_roundtrip (a : MemPath) (segs : List String) (fuel : Nat)
    (h1 : segs ≠ []) (h2 : segs.length < fuel) :
    genericSegmentsFrom fuel (genericDescendant a segs) a = .ok segs
    ∧ (∀ ss, genericSegmentsFrom fuel (genericDescendant a segs) a = .ok ss →
        genericDescendant a ss = genericDescendant a segs)
    ∧ (∀ p : MemPath, p.segs.length < fuel → ¬ (a.fs = p.fs ∧ a.segs <+: p.segs) →
        genericSegmentsFrom fuel p a = .error "not parent") := by
  have hok : genericSegmentsFrom fuel (genericDescendant a segs) a = .ok segs := by
    rw [genericDescendant_eq]
    unfold genericSegmentsFrom
    have := segFromGo_ok a fuel segs [] h2 (by simpa using h1)
    rw [this]
    simp
  refine ⟨hok, ?_, ?_⟩
  · intro ss hss
    rw [hok] at hss
    cases hss
    rfl
  · intro p hp hnp
    unfold genericSegmentsFrom
    exact segFromGo_fail a fuel p [] hp hnp

/-- Witness for `descendant_segmentsFrom_roundtrip` at a concrete
ancestor and segment list. -/
theorem descendant_segmentsFrom_roundtrip_witness :
    genericSegmentsFrom 5 (genericDescendant ⟨0, ["r"]⟩ ["c", "d"]) ⟨0, ["r"]⟩ =
      .ok ["c", "d"]
    ∧ genericSegmentsFrom 5 ⟨0, ["z"]⟩ ⟨0, ["r"]⟩ = .error "not parent" := by
  refine ⟨(descendant_segmentsFrom_roundtrip ⟨0, ["r"]⟩ ["c", "d"] 5 (by decide) (by decide)).1, ?_⟩
  exact (descendant_segmentsFrom_roundtrip ⟨0, ["r"]⟩ ["c", "d"] 5 (by decide) (by decide)).2.2
    ⟨0, ["z"]⟩ (by decide) (by decide)

/-!
## The VCS-backed path (`l/project.py`, `GitPath`)

`from_path` wraps the repository root in
`GitPath(git_dir=root.child(".git"), path=root)` (or, when the root is
only detected through `git rev-parse`, in `GitPath(path=root)` with
`git_dir` left `None`).  `GitPath.parent` compares `self._path` with
`self._git_dir`; comparing a `MemoryPath` with `None` evaluates
`None._fs` and raises `AttributeError`, which we embed as `none`.
-/

/-- A `GitPath` over the memory backend, as in the repository's own
tests: the optional control-directory reference plus the wrapped
path. -/
structure GitPath where
  gitDir : Option MemPath
  path : MemPath
deriving DecidableEq

/-- `GitPath.parent`: `self` when `self._path == self._git_dir`,
otherwise a clone around `self._path.parent()`; `none` embeds the
`AttributeError` that the equality raises when `_git_dir` is `None`. -/
def GitPath.parent (g : GitPath) : Option GitPath :=
  match g.gitDir with
  | none => none
  | some d => if g.path = d then some g else some ⟨g.gitDir, g.path.parent⟩

/-- `ISOPath.parent`: drop the last segment; the image root is its own
parent. -/
def ISOPath.parentSegs (p : List String) : List String :=
  if p ≠ [] then p.dropLast else p

/-- C3 (code bug): the roots of the memory, optical and disk backends
are their own parents, but for a `GitPath` built by `from_path`
(control directory = `root.child(".git")`) the repository root is not a
fixed point of `parent()` — `parent()` climbs above the repository —
and with no control-directory reference `parent()` raises instead of
returning the repository root. -/
theorem gitpath_root_not_parent_fixed_point :
    MemPath.parent ⟨0, []⟩ = ⟨0, []⟩
    ∧ ISOPath.parentSegs [] = []
    ∧ FilePath.parent [] ("/".toList) = "/".toList
    ∧ GitPath.parent ⟨some ⟨0, ["repo", ".git"]⟩, ⟨0, ["repo"]⟩⟩ =
        some ⟨some ⟨0, ["repo", ".git"]⟩, ⟨0, []⟩⟩
    ∧ GitPath.parent ⟨some ⟨0, ["repo", ".git"]⟩, ⟨0, ["repo"]⟩⟩ ≠
        some ⟨some ⟨0, ["repo", ".git"]⟩, ⟨0, ["repo"]⟩⟩
    ∧ GitPath.parent ⟨none, ⟨0, ["repo"]⟩⟩ = none := by
  refine ⟨rfl, rfl, by decide, by decide, by decide, rfl⟩

/-!
## ISO 9660 identifier rewriting (`bp/iso.py`, `fixName` and
`Record.fromEntry`)

Identifiers are byte strings; we embed bytes as `Nat`.
-/

/-- One byte of Python's `str.lower`: fold `A`-`Z` to lower case. -/
def lowerByte (b : Nat) : Nat :=
  if 65 ≤ b ∧ b ≤ 90 then b + 32 else b

/-- `name.rsplit(";", 1)[0]`: everything before the last `;` (byte 59),
or the whole string when there is none. -/
def beforeLastSemi (name : List Nat) : List Nat :=
  let split := name.reverse.span (fun b => decide (b ≠ 59))
  if split.2 = [] then name else split.2.tail.reverse

/-- Python `name.rstrip(".")`: remove every trailing `.` (byte 46). -/
def rstripDots (name : List Nat) : List Nat :=
  (name.reverse.dropWhile (fun b => decide (b = 46))).reverse

/-- `bp.iso.fixName`: strip the part after the last `;`, then, if the
result ends with `.`, strip the trailing dots. -/
def fixName (name : List Nat) : List Nat :=
  let name := beforeLastSemi name
  if name.getLast? = some 46 then rstripDots name else name

/-- The identifier rewrite applied to a non-directory record's raw
identifier on read: `Record.fromEntry` lower-cases the bytes and
`ISO.readRecords` then applies `fixName`. -/
def decodeName (raw : List Nat) : List Nat :=
  fixName (raw.map lowerByte)

/-- Bytes of an ASCII string literal. -/
def strBytes (s : String) : List Nat :=
  s.toList.map Char.toNat

/-- The identifier rewrite as the amended spec words it: case-fold,
drop everything from the last `;` on, then drop all trailing dots. -/
def specNameRewrite (raw : List Nat) : List Nat :=
  rstripDots (beforeLastSemi (raw.map lowerByte))

theorem fixName_eq_rstrip (name : List Nat) :
    fixName name = rstripDots (beforeLastSemi name) := by
  unfold fixName
  by_cases h : (beforeLastSemi name).getLast? = some 46
  · rw [if_pos h]
  · rw [if_neg h]
    unfold rstripDots
    rcases hc : (beforeLastSemi name).reverse with _ | ⟨b, rest⟩
    · have : beforeLastSemi name = [] := by
        have := congrArg List.reverse hc
        simpa using this
      simp [this]
    · have hb : b ≠ 46 := by
        intro hcon
        apply h
        rw [← List.head?_reverse, hc, hcon]
        rfl
      rw [List.dropWhile_cons]
      simp only [hb, decide_eq_true_eq, if_false]
      rw [← hc]
      simp

/-- C4 (amended): every non-directory record identifier is rewritten on
read by case-folding to lower case, dropping everything from the last
`;` on (whatever follows the `;`), and then dropping **all** trailing
`.` bytes; in particular `"FOO.TXT;1"` decodes to `"foo.txt"` and
`"BAR."` decodes to `"bar"`. -/
theorem name_rewrite_amended :
    (∀ raw, decodeName raw = specNameRewrite raw)
    ∧ decodeName (strBytes "FOO.TXT;1") = strBytes "foo.txt"
    ∧ decodeName (strBytes "BAR.") = strBytes "bar" := by
  refine ⟨?_, by decide, by decide⟩
  intro raw
  unfold decodeName specNameRewrite
  exact fixName_eq_rstrip _

/-- C4 counterexample: the claim predicts that an identifier ending in
several dots loses exactly one (`"BAR.."` ↦ `"bar."`) and that only a
`;<digits>` suffix is stripped (`"A;B"` ↦ `"a;b"`); the code strips
all trailing dots and everything after the last `;`. -/
theorem name_rewrite_counterexample :
    decodeName (strBytes "BAR..") = strBytes "bar"
    ∧ decodeName (strBytes "BAR..") ≠ strBytes "bar."
    ∧ decodeName (strBytes "A;B") = strBytes "a"
    ∧ decodeName (strBytes "A;B") ≠ strBytes "a;b" := by
  exact ⟨by decide, by decide, by decide, by decide⟩

/-!
## The optical-image parser (`bp/iso.py`)

An image is embedded as the function from absolute byte offset to byte
value; `handle.seek`/`read` become offset arithmetic on it.  Python
exceptions (`ValueError` from `int()` and `datetime`, short or invalid
records) are embedded as `none`.
-/

/-- An optical image: the byte stored at each absolute offset. -/
def Image := Nat → Nat

/-- The list of `len` bytes of a read starting at `start`. -/
def sliceB (data : Nat → Nat) (start len : Nat) : List Nat :=
  (List.range len).map (fun i => data (start + i))

/-- A byte Python's `str.strip` removes (ASCII whitespace). -/
def isSpaceByte (b : Nat) : Bool :=
  decide (b = 32 ∨ (9 ≤ b ∧ b ≤ 13))

/-- Python `s.strip()`. -/
def stripBytes (s : List Nat) : List Nat :=
  ((s.dropWhile isSpaceByte).reverse.dropWhile isSpaceByte).reverse

/-- The value of an ASCII digit byte. -/
def digitVal (b : Nat) : Option Nat :=
  if 48 ≤ b ∧ b ≤ 57 then some (b - 48) else none

/-- Python `int(s)` on a byte string of decimal digits (whitespace is
trimmed; anything else raises `ValueError`). -/
def parseNat (s : List Nat) : Option Nat :=
  let t := stripBytes s
  if t = [] then none
  else
    t.foldl
      (fun acc b =>
        match acc, digitVal b with
        | some n, some d => some (n * 10 + d)
        | _, _ => none)
      (some 0)

def isLeapYear (y : Nat) : Bool :=
  decide ((y % 4 = 0 ∧ y % 100 ≠ 0) ∨ y % 400 = 0)

def daysInMonth (y m : Nat) : Nat :=
  if m = 2 then (if isLeapYear y then 29 else 28)
  else if m = 4 ∨ m = 6 ∨ m = 9 ∨ m = 11 then 30
  else 31

/-- `datetime.datetime(y, mo, d, h, mi, s, us)`: the constructor
validates every field and raises `ValueError` otherwise.  A valid
date-time is kept as its field list. -/
def mkDatetime (y mo d h mi s us : Nat) : Option (List Nat) :=
  if 1 ≤ y ∧ y ≤ 9999 ∧ 1 ≤ mo ∧ mo ≤ 12 ∧ 1 ≤ d ∧ d ≤ daysInMonth y mo ∧
      h ≤ 23 ∧ mi ≤ 59 ∧ s ≤ 59 ∧ us ≤ 999999 then
    some [y, mo, d, h, mi, s, us]
  else none

/-- `bp.iso.thawPrimaryDate`: a 17-byte date-time string, of which the
first 16 bytes are decimal fields (the last two are hundredths of a
second, scaled to microseconds). -/
def thawPrimaryDate (s : List Nat) : Option (List Nat) := do
  let year ← parseNat (s.take 4)
  let month ← parseNat ((s.drop 4).take 2)
  let day ← parseNat ((s.drop 6).take 2)
  let hour ← parseNat ((s.drop 8).take 2)
  let minute ← parseNat ((s.drop 10).take 2)
  let second ← parseNat ((s.drop 12).take 2)
  let frac ← parseNat ((s.drop 14).take 2)
  mkDatetime year month day hour minute second (frac * 10 * 1000)

/-- `bp.iso.thawRecordDate`: six raw bytes, year counted from 1900. -/
def thawRecordDate (s0 s1 s2 s3 s4 s5 : Nat) : Option (List Nat) :=
  mkDatetime (s0 + 1900) s1 s2 s3 s4 s5 0

/-- `bp.iso.Record` (a parsed directory record). -/
structure IsoRecord where
  extent : Nat
  size : Nat
  time : List Nat
  isdir : Bool
  name : List Nat
deriving DecidableEq

/-- `Record.fromEntry`: `data` gives the bytes of the slice the caller
read, `dlen` its length (Python slicing clamps the identifier at it;
a declared record length beyond it raises `ValueError`). -/
def IsoRecord.fromEntry (data : Nat → Nat) (dlen : Nat) : Option IsoRecord :=
  let dataLen := data 0
  if dataLen > dlen then none
  else
    let extent := data 2 + 256 * data 3 + 65536 * data 4 + 16777216 * data 5
    let size := data 10 + 256 * data 11 + 65536 * data 12 + 16777216 * data 13
    match thawRecordDate (data 18) (data 19) (data 20) (data 21) (data 22) (data 23) with
    | none => none
    | some time =>
      let flags := data 25
      let isdir := decide (flags &&& 2 ≠ 0)
      let nameLen := data 32
      let name := (sliceB data 33 (min nameLen (dlen - 33))).map lowerByte
      some ⟨extent, size, time, isdir, name⟩

/-- `bp.iso.Primary` (the decoded Primary Volume Descriptor). -/
structure IsoPrimary where
  identifier : List Nat
  root : IsoRecord
  creator : List Nat
  ctime : List Nat
  mtime : List Nat
deriving DecidableEq

/-- `Primary.fromEntry`, applied (as in `readVDs`) to `data = vd[7:]`
of length 2041, within which every fixed-width slice below lies. -/
def IsoPrimary.fromEntry (data : Nat → Nat) : Option IsoPrimary := do
  let identifier := stripBytes (sliceB data 33 32)
  let root ← IsoRecord.fromEntry (fun i => data (149 + i)) 34
  let creator := stripBytes (sliceB data 439 128)
  let ctime ← thawPrimaryDate (sliceB data 806 17)
  let mtime ← thawPrimaryDate (sliceB data 823 17)
  some ⟨identifier, root, creator, ctime, mtime⟩

/-- The loop of `ISO.readVDs`: read a 2048-byte block, stop on type
0xFF returning the accumulated primary descriptor, decode type 0x01
blocks (each decode overwrites `self.primary`), skip the rest.  `none`
models the exception path (a failed decode, or reading past the end of
the image, which the fuel bounds). -/
def VDgo (img : Image) : Nat → Nat → Option IsoPrimary → Option (Option IsoPrimary)
  | 0, _, _ => none
  | fuel + 1, pos, acc =>
    if img pos = 255 then some acc
    else if img pos = 1 then
      match IsoPrimary.fromEntry (fun i => img (pos + 7 + i)) with
      | none => none
      | some p => VDgo img fuel (pos + 2048) (some p)
    else VDgo img fuel (pos + 2048) acc

/-- `ISO.readVDs`: seek to byte 32768 and scan. -/
def readVDs (img : Image) (fuel : Nat) : Option (Option IsoPrimary) :=
  VDgo img fuel 32768 none

/-- The Primary Volume Descriptor decode as the amended claim words
it: fields relative to the descriptor block start — identifier = 32
bytes at offset 40 (trimmed), root record = the 34 bytes at offset
156, creator = 128 bytes at offset 446 (trimmed), creation and
modification times = the 17-byte date-time strings at offsets 813 and
830. -/
def specDecodePVD (img : Image) (base : Nat) : Option IsoPrimary := do
  let identifier := stripBytes (sliceB (fun i => img (base + i)) 40 32)
  let root ← IsoRecord.fromEntry (fun i => img (base + 156 + i)) 34
  let creator := stripBytes (sliceB (fun i => img (base + i)) 446 128)
  let ctime ← thawPrimaryDate (sliceB (fun i => img (base + i)) 813 17)
  let mtime ← thawPrimaryDate (sliceB (fun i => img (base + i)) 830 17)
  some ⟨identifier, root, creator, ctime, mtime⟩

/-- The descriptor scan as the amended claim words it: 2048-byte
blocks from byte 32768, stop at the first type-0xFF block, decode
every type-0x01 block at the offsets of `specDecodePVD` and keep the
last one. -/
def specVDgo (img : Image) : Nat → Nat → Option IsoPrimary → Option (Option IsoPrimary)
  | 0, _, _ => none
  | fuel + 1, pos, acc =>
    if img pos = 255 then some acc
    else if img pos = 1 then
      match specDecodePVD img pos with
      | none => none
      | some p => specVDgo img fuel (pos + 2048) (some p)
    else specVDgo img fuel (pos + 2048) acc

def specReadVDs (img : Image) (fuel : Nat) : Option (Option IsoPrimary) :=
  specVDgo img fuel 32768 none

theorem specDecodePVD_eq (img : Image) (base : Nat) :
    specDecodePVD img base = IsoPrimary.fromEntry (fun i => img (base + 7 + i)) := by
  unfold specDecodePVD IsoPrimary.fromEntry
  have hid : sliceB (fun i => img (base + i)) 40 32 =
      sliceB (fun i => (fun j => img (base + 7 + j)) i) 33 32 := by
    unfold sliceB
    apply List.map_congr_left
    intro a _
    show img (base + (40 + a)) = img (base + 7 + (33 + a))
    congr 1
    omega
  have hroot : (fun i => img (base + 156 + i)) =
      (fun i => (fun j => img (base + 7 + j)) (149 + i)) := by
    funext i
    show img (base + 156 + i) = img (base + 7 + (149 + i))
    congr 1
    omega
  have hcre : sliceB (fun i => img (base + i)) 446 128 =
      sliceB (fun i => (fun j => img (base + 7 + j)) i) 439 128 := by
    unfold sliceB
    apply List.map_congr_left
    intro a _
    show img (base + (446 + a)) = img (base + 7 + (439 + a))
    congr 1
    omega
  have hct : sliceB (fun i => img (base + i)) 813 17 =
      sliceB (fun i => (fun j => img (base + 7 + j)) i) 806 17 := by
    unfold sliceB
    apply List.map_congr_left
    intro a _
    show img (base + (813 + a)) = img (base + 7 + (806 + a))
    congr 1
    omega
  have hmt : sliceB (fun i => img (base + i)) 830 17 =
      sliceB (fun i => (fun j => img (base + 7 + j)) i) 823 17 := by
    unfold sliceB
    apply List.map_congr_left
    intro a _
    show img (base + (830 + a)) = img (base + 7 + (823 + a))
    congr 1
    omega
  rw [hid, hroot, hcre, hct, hmt]

theorem VDgo_eq_spec (img : Image) :
    ∀ (fuel pos : Nat) (acc : Option IsoPrimary),
      VDgo img fuel pos acc = specVDgo img fuel pos acc := by
  intro fuel
  induction fuel with
  | zero => intro pos acc; rfl
  | succ fuel ih =>
    intro pos acc
    unfold VDgo specVDgo
    by_cases h255 : img pos = 255
    · rw [if_pos h255, if_pos h255]
    · rw [if_neg h255, if_neg h255]
      by_cases h1 : img pos = 1
      · rw [if_pos h1, if_pos h1, specDecodePVD_eq]
        cases IsoPrimary.fromEntry (fun i => img (pos + 7 + i)) with
        | none => rfl
        | some p => exact ih _ _
      · rw [if_neg h1, if_neg h1]
        exact ih _ _

/-- C2 (amended): opening an image reads 2048-byte descriptor blocks
from byte offset 32768 and stops at the first block with type byte
0xFF; every block of type 0x01 is decoded and the **last** one before
the terminator is kept as the Primary Volume Descriptor; relative to
the descriptor start the identifier is the 32 bytes at offset **40**
(trimmed), the root directory record the 34 bytes at offset **156**,
the creator id the 128 bytes at offset **446** (trimmed), and the
creation/modification times the 17-byte date-time strings at offsets
**813** and **830** (the claim's offsets hold within `vd[7:]`, not
relative to the descriptor start). -/
theorem readVDs_decodes_last_pvd_at_spec_offsets (img : Image) (fuel : Nat) :
    readVDs img fuel = specReadVDs img fuel := by
  unfold readVDs specReadVDs
  exact VDgo_eq_spec img fuel 32768 none

/-- The 16 decimal bytes of `"2020010112000000"` followed by a zero
byte: a valid 17-byte primary date-time string. -/
def pvdDateByte (j : Nat) : Nat :=
  [50, 48, 50, 48, 48, 49, 48, 49, 49, 50, 48, 48, 48, 48, 48, 48, 0].getD j 0

/-- Bytes of one crafted Primary Volume Descriptor block: type byte 1;
`idMark` fills offsets 33-39 and `idChar` offsets 40-42 (the start of
the real identifier field), spaces pad to offset 71; a minimal valid
directory record (length 34, extent 20, size 2048, date 2020-01-01,
directory flag, 1-byte NUL name) sits at offset 156; valid date-time
strings sit at offsets 813 and 830. -/
def pvdBlockByte (idMark idChar i : Nat) : Nat :=
  if i = 0 then 1
  else if 33 ≤ i ∧ i < 40 then idMark
  else if 40 ≤ i ∧ i < 43 then idChar
  else if 43 ≤ i ∧ i < 72 then 32
  else if i = 156 then 34
  else if i = 158 then 20
  else if i = 167 then 8
  else if i = 174 then 120
  else if i = 175 then 1
  else if i = 176 then 1
  else if i = 181 then 2
  else if i = 188 then 1
  else if 813 ≤ i ∧ i < 830 then pvdDateByte (i - 813)
  else if 830 ≤ i ∧ i < 847 then pvdDateByte (i - 830)
  else 0

/-- A concrete image: sector 16 holds a PVD marked `X`/`A`, sector 17
a second PVD marked `Y`/`B`, sector 18 the set terminator. -/
def imgTwoPVD : Image := fun n =>
  if 32768 ≤ n ∧ n < 34816 then pvdBlockByte 88 65 (n - 32768)
  else if 34816 ≤ n ∧ n < 36864 then pvdBlockByte 89 66 (n - 34816)
  else if n = 36864 then 255
  else 0

/-- C2 counterexample: on `imgTwoPVD` the decoded identifier is
`"BBB"` — the trimmed 32 bytes at offset 40 of the **second** (last)
type-0x01 block — whereas the claim predicts the trimmed 32 bytes at
offset 33 of the **first** type-0x01 block, which are
`"XXXXXXXAAA"`. -/
theorem readVDs_counterexample :
    (readVDs imgTwoPVD 4).map (fun po => po.map IsoPrimary.identifier) =
      some (some (strBytes "BBB"))
    ∧ stripBytes (sliceB (fun i => imgTwoPVD (32768 + i)) 33 32) = strBytes "XXXXXXXAAA"
    ∧ strBytes "BBB" ≠ strBytes "XXXXXXXAAA"
    ∧ strBytes "BBB" ≠ stripBytes (sliceB (fun i => imgTwoPVD (32768 + i)) 40 32) := by
  exact ⟨by decide, by decide, by decide, by decide⟩

/-- `(offset + 2047) & ~2047`: round up to the next 2048 multiple. -/
def roundUp2048 (n : Nat) : Nat := ((n + 2047) / 2048) * 2048

/-- The generator loop of `ISO.readRecords` (`bp/iso.py` lines
130-163).  Each iteration seeks to `offset` and reads 256 bytes; if
the declared record length would cross a 2048-byte boundary, `offset`
is rounded up to the boundary and the code calls `handle.read(256)`
again — without seeking, so that second read happens at the handle's
current position `offset + 256`.  A zero length ends the listing.
Directory records named `"\x00"`/`"\x01"` are skipped; other directory
records are yielded with their raw lower-cased name (their extent is
cached in `_dirs`, not modelled here); non-directory records are
yielded with `fixName` applied.  `none` models a raised exception. -/
def readRecordsGo (img : Image) : Nat → Nat → List IsoRecord → Option (List IsoRecord)
  | 0, _, _ => none
  | fuel + 1, offset, acc =>
    let size0 := img offset
    let crossed := offset / 2048 < (offset + size0) / 2048
    let readPos := if crossed then offset + 256 else offset
    let size := img readPos
    let newOffset := if crossed then roundUp2048 offset else offset
    if size = 0 then some acc.reverse
    else
      match IsoRecord.fromEntry (fun i => img (readPos + i)) 256 with
      | none => none
      | some record =>
        if record.isdir ∧ (record.name = [0] ∨ record.name = [1]) then
          readRecordsGo img fuel (newOffset + size) acc
        else if record.isdir then
          readRecordsGo img fuel (newOffset + size) (record :: acc)
        else
          readRecordsGo img fuel (newOffset + size)
            ({ record with name := fixName record.name } :: acc)

/-- `ISO.readRecords` for the directory extent starting at the given
sector. -/
def readRecords (img : Image) (fuel extent : Nat) : Option (List IsoRecord) :=
  readRecordsGo img fuel (extent * 2048) []

/-- A minimal valid non-directory record: declared length `size`, all
fields zero except a valid date (2020-01-01) and a one-byte name. -/
def isoRecByte (size nameByte i : Nat) : Nat :=
  if i = 0 then size
  else if i = 18 then 120
  else if i = 19 then 1
  else if i = 20 then 1
  else if i = 32 then 1
  else if i = 33 then nameByte
  else 0

/-- A directory extent at sector 1 packed so that a record straddles a
sector boundary: eight 255-byte records named `f` fill bytes
2048-4087; byte 4088 declares a length of 255 (which would cross the
boundary at 4096); a record named `y` (the one the claim expects to be
read next) is stored at the boundary 4096; a record named `x` is
stored at 4344 = 4088 + 256, the position the code actually reads
from. -/
def straddleImg : Image := fun n =>
  if 2048 ≤ n ∧ n < 4088 then isoRecByte 255 102 ((n - 2048) % 255)
  else if n = 4088 then 255
  else if 4096 ≤ n ∧ n < 4136 then isoRecByte 40 121 (n - 4096)
  else if 4344 ≤ n ∧ n < 4384 then isoRecByte 40 120 (n - 4344)
  else 0

/-- C5 (code bug): on `straddleImg` the partial record at 4088 is
indeed not returned, but the record yielded after the boundary
adjustment is the one stored at byte 4344 (named `x`) — the handle's
un-seeked position — not the record stored at the next sector boundary
4096 (named `y`) as the claim (and the code's own "move forward and
try again" comment) prescribes. -/
theorem readRecords_boundary_divergence :
    (readRecords straddleImg 20 1).map (fun l => l.map IsoRecord.name) =
      some [[102], [102], [102], [102], [102], [102], [102], [102], [120]]
    ∧ (IsoRecord.fromEntry (fun i => straddleImg (4096 + i)) 256).map
        (fun r => r.name) = some [121]
    ∧ ([120] : List Nat) ≠ [121] := by
  exact ⟨by decide, by decide, by decide⟩

/-!
## The generic recursive walk (`bp/generic.py`, `genericWalk`)

`genericWalk` only consumes the Capability Contract, so it is embedded
over a record of the operations it calls, with paths as segment lists.
A concrete filesystem is given by a finite tree (listing order = child
order) plus a link-resolution function `realpath`.
-/

/-- A finite filesystem tree: entry name, directory flag, children in
listing order. -/
inductive FsTree where
  | node (name : String) (isDir : Bool) (children : List FsTree)

def FsTree.name : FsTree → String
  | .node n _ _ => n

def FsTree.isDir : FsTree → Bool
  | .node _ d _ => d

def FsTree.children : FsTree → List FsTree
  | .node _ _ cs => cs

/-- First child with the given name (listing lookup). -/
def findByName (n : String) : List FsTree → Option FsTree
  | [] => none
  | t :: ts => if t.name = n then some t else findByName n ts

/-- Resolve a segment list below a tree. -/
def lookupT : FsTree → List String → Option FsTree
  | t, [] => some t
  | t, n :: rest =>
    match findByName n t.children with
    | some c => lookupT c rest
    | none => none

mutual
def depthT : FsTree → Nat
  | .node _ _ cs => depthListT cs + 1
def depthListT : List FsTree → Nat
  | [] => 0
  | c :: cs => max (depthT c) (depthListT cs)
end

mutual
def nodupNames : FsTree → Bool
  | .node _ _ cs => decide ((cs.map FsTree.name).Nodup) && nodupNamesList cs
def nodupNamesList : List FsTree → Bool
  | [] => true
  | c :: cs => nodupNames c && nodupNamesList cs
end

mutual
/-- The nodes of a subtree in depth-first pre-order, children in
listing order (not sorted), each node strictly before its descendants
— the claim's description of the walk's output on the subtree rooted
at path `p`. -/
def preorderT : FsTree → List String → List (List String)
  | .node _ d cs, p => p :: (if d then preorderListT cs p else [])
def preorderListT : List FsTree → List String → List (List String)
  | [], _ => []
  | c :: cs, p => preorderT c (p ++ [c.name]) ++ preorderListT cs p
end

/-- The Capability Contract operations `genericWalk`, `genericParents`
and the cycle check consume. -/
structure PathOps where
  parent : List String → List String
  child : List String → String → List String
  childNames : List String → List String
  isdir : List String → Bool
  realpath : List String → List String

/-- The operations of a tree-backed filesystem with link resolution
`rp` (`rp = id` is the alias-free case). -/
def treeOps (t : FsTree) (rp : List String → List String) : PathOps where
  parent p := p.dropLast
  child p n := p ++ [n]
  childNames p :=
    match lookupT t p with
    | some u => u.children.map FsTree.name
    | none => []
  isdir p :=
    match lookupT t p with
    | some u => u.isDir
    | none => false
  realpath := rp

/-- `genericParents`: yield `parent()` repeatedly up to (excluding) the
root fixed point.  The fuel models the unbounded Python loop. -/
def parentsFuel (ops : PathOps) : Nat → List String → List (List String)
  | 0, _ => []
  | fuel + 1, p =>
    let q := ops.parent p
    if p = q then [] else q :: parentsFuel ops fuel q

inductive WalkErr where
  | cycle
  | fuel
deriving DecidableEq

/-- The symlink-loop test of `genericWalk` applied to one recursively
produced descendant `subc` while descending from `path`:
`rsubc == rself or rsubc in rself.parents()`. -/
def badSub (ops : PathOps) (fuel : Nat) (path subc : List String) : Bool :=
  let rsubc := ops.realpath subc
  let rself := ops.realpath path
  decide (rsubc = rself) || decide (rsubc ∈ parentsFuel ops fuel rself)

/-- `pred = descend is None or (c.isdir() and descend(c))`. -/
def walkPred (ops : PathOps) (descend : Option (List String → Bool)) :
    List String → Bool :=
  match descend with
  | none => fun _ => true
  | some d => fun c => ops.isdir c && d c

/-- The per-child loop of `genericWalk`: for each child, either recurse
(`walkFn`), guard the recursive results with the cycle check, and
splice them in, or yield the child itself when `pred` declines. -/
def walkKids (walkFn : List String → Except WalkErr (List (List String)))
    (checkBad : List (List String) → Bool)
    (mkChild : String → List String) (pred : List String → Bool) :
    List String → Except WalkErr (List (List String))
  | [] => .ok []
  | n :: ns =>
    let c := mkChild n
    if pred c then
      match walkFn c with
      | .error e => .error e
      | .ok sub =>
        if checkBad sub then .error .cycle
        else
          match walkKids walkFn checkBad mkChild pred ns with
          | .error e => .error e
          | .ok rest => .ok (sub ++ rest)
    else
      match walkKids walkFn checkBad mkChild pred ns with
      | .error e => .error e
      | .ok rest => .ok (c :: rest)

/-- `genericWalk`: yield the path, then walk its children.  The fuel
bounds the recursion depth; `.error .fuel` marks exhaustion (the
claims always supply enough). -/
def walkGo (ops : PathOps) (descend : Option (List String → Bool)) :
    Nat → List String → Except WalkErr (List (List String))
  | 0, _ => .error .fuel
  | fuel + 1, path =>
    if ops.isdir path then
      match walkKids (fun c => walkGo ops descend fuel c)
          (fun sub => sub.any (fun subc => badSub ops fuel path subc))
          (fun n => ops.child path n)
          (walkPred ops descend)
          (ops.childNames path) with
      | .error e => .error e
      | .ok rest => .ok (path :: rest)
    else .ok [path]

theorem walkPred_none (ops : PathOps) : walkPred ops none = fun _ => true := rfl

theorem depthT_pos (u : FsTree) : 1 ≤ depthT u := by
  cases u
  simp [depthT]

theorem depthT_le_of_mem {c : FsTree} :
    ∀ {cs : List FsTree}, c ∈ cs → depthT c ≤ depthListT cs := by
  intro cs
  induction cs with
  | nil => intro h; simp at h
  | cons c' cs ih =>
    intro h
    simp only [depthListT]
    rcases List.mem_cons.mp h with rfl | h2
    · exact le_max_left _ _
    · exact le_trans (ih h2) (le_max_right _ _)

theorem nodupNamesList_mem :
    ∀ (cs : List FsTree), nodupNamesList cs = true → ∀ c ∈ cs, nodupNames c = true := by
  intro cs
  induction cs with
  | nil => intro _ c hc; simp at hc
  | cons c' cs ih =>
    intro h c hc
    simp only [nodupNamesList, Bool.and_eq_true] at h
    rcases List.mem_cons.mp hc with rfl | hc2
    · exact h.1
    · exact ih h.2 c hc2

theorem findByName_of_mem :
    ∀ (cs : List FsTree), (cs.map FsTree.name).Nodup →
      ∀ c ∈ cs, findByName c.name cs = some c := by
  intro cs
  induction cs with
  | nil => intro _ c hc; simp at hc
  | cons c' cs ih =>
    intro hnd c hc
    simp only [List.map_cons, List.nodup_cons] at hnd
    unfold findByName
    rcases List.mem_cons.mp hc with rfl | hc2
    · rw [if_pos rfl]
    · have hne : c'.name ≠ c.name := by
        intro hcon
        exact hnd.1 (hcon ▸ List.mem_map.mpr ⟨c, hc2, rfl⟩)
      rw [if_neg hne]
      exact ih hnd.2 c hc2

theorem lookupT_append :
    ∀ (p : List String) (t : FsTree) (n : String),
      lookupT t (p ++ [n]) = (lookupT t p).bind (fun u => findByName n u.children) := by
  intro p
  induction p with
  | nil =>
    intro t n
    have hbind : (lookupT t []).bind (fun u => findByName n u.children) =
        findByName n t.children := rfl
    rw [List.nil_append, hbind]
    simp only [lookupT]
    cases findByName n t.children <;> rfl
  | cons m rest ih =>
    intro t n
    simp only [List.cons_append, lookupT]
    cases findByName m t.children with
    | none => rfl
    | some c => exact ih c n

theorem mem_preorderListT {x : List String} :
    ∀ (cs : List FsTree) (q : List String),
      x ∈ preorderListT cs q ↔ ∃ c, c ∈ cs ∧ x ∈ preorderT c (q ++ [c.name]) := by
  intro cs
  induction cs with
  | nil => intro q; simp [preorderListT]
  | cons c cs ih =>
    intro q
    simp only [preorderListT, List.mem_append, ih]
    constructor
    · rintro (h | ⟨c', hc', hx⟩)
      · exact ⟨c, List.mem_cons_self c cs, h⟩
      · exact ⟨c', List.mem_cons_of_mem c hc', hx⟩
    · rintro ⟨c', hc', hx⟩
      rcases List.mem_cons.mp hc' with rfl | hc2
      · exact Or.inl hx
      · exact Or.inr ⟨c', hc2, hx⟩

theorem preorderT_prefix_aux :
    ∀ (k : Nat) (u : FsTree), depthT u ≤ k →
      ∀ (q x : List String), x ∈ preorderT u q → q <+: x := by
  intro k
  induction k with
  | zero =>
    intro u hd
    exact absurd hd (by have := depthT_pos u; omega)
  | succ k ih =>
    intro u hd q x hx
    rcases u with ⟨nm, d, cs⟩
    simp only [preorderT] at hx
    rcases List.mem_cons.mp hx with rfl | hx2
    · exact List.prefix_refl x
    · by_cases hD : d
      · rw [if_pos hD] at hx2
        rcases (mem_preorderListT cs q).mp hx2 with ⟨c, hc, hxc⟩
        have hdc : depthT c ≤ k := by
          have h1 := depthT_le_of_mem hc
          simp only [depthT] at hd
          omega
        exact (List.prefix_append q [c.name]).trans (ih c hdc (q ++ [c.name]) x hxc)
      · rw [if_neg hD] at hx2
        simp at hx2

theorem preorderListT_prefix {x : List String} {cs : List FsTree} {q : List String}
    (h : x ∈ preorderListT cs q) : ∃ c, c ∈ cs ∧ (q ++ [c.name]) <+: x := by
  rcases (mem_preorderListT cs q).mp h with ⟨c, hc, hx⟩
  exact ⟨c, hc, preorderT_prefix_aux (depthT c) c le_rfl _ x hx⟩

theorem getElem?_concat_prefix {p x : List String} {a : String}
    (h : (p ++ [a]) <+: x) : x[p.length]? = some a := by
  rcases h with ⟨tail, rfl⟩
  rw [List.getElem?_append, if_pos (by simp)]
  rw [List.getElem?_concat_length]

theorem mem_parentsFuel_length (ops : PathOps) (hpar : ∀ p, ops.parent p = p.dropLast) :
    ∀ (fuel : Nat) (p x : List String),
      x ∈ parentsFuel ops fuel p → x.length < p.length := by
  intro fuel
  induction fuel with
  | zero => intro p x h; simp [parentsFuel] at h
  | succ fuel ih =>
    intro p x h
    simp only [parentsFuel] at h
    by_cases hq : p = ops.parent p
    · rw [if_pos hq] at h
      simp at h
    · rw [if_neg hq] at h
      have hne : p ≠ [] := by
        intro hcon
        apply hq
        subst hcon
        rw [hpar]
        rfl
      have hlp : 0 < p.length := List.length_pos.mpr hne
      rcases List.mem_cons.mp h with rfl | h2
      · rw [hpar, List.length_dropLast]
        omega
      · have h3 := ih (ops.parent p) x h2
        rw [hpar, List.length_dropLast] at h3
        omega

theorem walkKids_eq (walkFn : List String → Except WalkErr (List (List String)))
    (checkBad : List (List String) → Bool) (p : List String) :
    ∀ (cs : List FsTree),
      (∀ c ∈ cs, walkFn (p ++ [c.name]) = .ok (preorderT c (p ++ [c.name]))) →
      (∀ c ∈ cs, checkBad (preorderT c (p ++ [c.name])) = false) →
      walkKids walkFn checkBad (fun n => p ++ [n]) (fun _ => true) (cs.map FsTree.name) =
        .ok (preorderListT cs p) := by
  intro cs
  induction cs with
  | nil => intro _ _; rfl
  | cons c cs ih =>
    intro hW hB
    have hWc := hW c (List.mem_cons_self c cs)
    have hBc := hB c (List.mem_cons_self c cs)
    have ih' := ih (fun c' hc' => hW c' (List.mem_cons_of_mem c hc'))
      (fun c' hc' => hB c' (List.mem_cons_of_mem c hc'))
    simp only [List.map_cons, walkKids, hWc, hBc, ih', preorderListT]
    simp

theorem walkGo_eq_preorder (t : FsTree) :
    ∀ (fuel : Nat) (p : List String) (u : FsTree),
      lookupT t p = some u → nodupNames u = true → depthT u ≤ fuel →
      walkGo (treeOps t (fun z => z)) none fuel p = .ok (preorderT u p) := by
  intro fuel
  induction fuel with
  | zero =>
    intro p u hl hn hd
    exact absurd hd (by have := depthT_pos u; omega)
  | succ fuel ih =>
    intro p u hl hn hd
    rcases u with ⟨nm, d, cs⟩
    have hdir : (treeOps t (fun z => z)).isdir p = d := by
      show (match lookupT t p with | some u => u.isDir | none => false) = d
      rw [hl]
      rfl
    have hnames : ((cs.map FsTree.name).Nodup) ∧ nodupNamesList cs = true := by
      simpa [nodupNames, Bool.and_eq_true, decide_eq_true_eq] using hn
    cases d with
    | false =>
      unfold walkGo
      rw [hdir]
      rw [if_neg (by simp)]
      simp [preorderT]
    | true =>
      have hcn : (treeOps t (fun z => z)).childNames p = cs.map FsTree.name := by
        show (match lookupT t p with
          | some u => u.children.map FsTree.name | none => []) = _
        rw [hl]
        rfl
      unfold walkGo
      rw [hdir, if_pos rfl, hcn, walkPred_none]
      have hkids := walkKids_eq (fun c => walkGo (treeOps t (fun z => z)) none fuel c)
        (fun sub => sub.any (fun subc => badSub (treeOps t (fun z => z)) fuel p subc))
        p cs ?hW ?hB
      case hW =>
        intro c hc
        apply ih
        · rw [lookupT_append, hl]
          exact findByName_of_mem cs hnames.1 c hc
        · exact nodupNamesList_mem cs hnames.2 c hc
        · have h1 := depthT_le_of_mem hc
          simp only [depthT] at hd
          omega
      case hB =>
        intro c hc
        rw [List.any_eq_false]
        intro subc hsub
        have hpre : (p ++ [c.name]) <+: subc :=
          preorderT_prefix_aux (depthT c) c le_rfl (p ++ [c.name]) subc hsub
        have hlen : p.length < subc.length := by
          have h2 := hpre.length_le
          simp at h2
          omega
        suffices hfalse : badSub (treeOps t (fun z => z)) fuel p subc = false by
          simp [hfalse]
        show (decide (subc = p) ||
          decide (subc ∈ parentsFuel (treeOps t (fun z => z)) fuel p)) = false
        rw [Bool.or_eq_false_iff]
        constructor
        · simp only [decide_eq_false_iff_not]
          intro hcon
          rw [hcon] at hlen
          omega
        · simp only [decide_eq_false_iff_not]
          intro hmem
          have h4 := mem_parentsFuel_length (treeOps t (fun z => z)) (fun _ => rfl)
            fuel p subc hmem
          omega
      have hchild : (fun n => (treeOps t (fun z => z)).child p n) = (fun n => p ++ [n]) := rfl
      rw [hchild, hkids]
      simp [preorderT]

theorem preorderListT_nodup_aux (k : Nat)
    (ih : ∀ (u : FsTree), depthT u ≤ k → nodupNames u = true →
      ∀ q, (preorderT u q).Nodup) :
    ∀ (cs : List FsTree), depthListT cs ≤ k → (cs.map FsTree.name).Nodup →
      nodupNamesList cs = true → ∀ q, (preorderListT cs q).Nodup := by
  intro cs
  induction cs with
  | nil => intro _ _ _ q; simp [preorderListT]
  | cons c cs ihcs =>
    intro hd hnames hnl q
    simp only [depthListT] at hd
    simp only [List.map_cons, List.nodup_cons] at hnames
    simp only [nodupNamesList, Bool.and_eq_true] at hnl
    simp only [preorderListT]
    apply List.Nodup.append
    · exact ih c (le_trans (le_max_left _ _) hd) hnl.1 (q ++ [c.name])
    · exact ihcs (le_trans (le_max_right _ _) hd) hnames.2 hnl.2 q
    · intro x hx1 hx2
      have hpre1 : (q ++ [c.name]) <+: x :=
        preorderT_prefix_aux (depthT c) c le_rfl _ x hx1
      rcases preorderListT_prefix hx2 with ⟨c', hc', hpre2⟩
      have e1 := getElem?_concat_prefix hpre1
      have e2 := getElem?_concat_prefix hpre2
      rw [e1] at e2
      have e3 : c.name = c'.name := by
        injection e2
      apply hnames.1
      rw [e3]
      exact List.mem_map.mpr ⟨c', hc', rfl⟩

theorem preorderT_nodup_aux :
    ∀ (k : Nat) (u : FsTree), depthT u ≤ k → nodupNames u = true →
      ∀ q, (preorderT u q).Nodup := by
  intro k
  induction k with
  | zero =>
    intro u hd
    exact absurd hd (by have := depthT_pos u; omega)
  | succ k ih =>
    intro u hd hn q
    rcases u with ⟨nm, d, cs⟩
    have hnames : ((cs.map FsTree.name).Nodup) ∧ nodupNamesList cs = true := by
      simpa [nodupNames, Bool.and_eq_true, decide_eq_true_eq] using hn
    have hdcs : depthListT cs ≤ k := by
      simp only [depthT] at hd
      omega
    simp only [preorderT]
    cases d with
    | false => simp
    | true =>
      rw [if_pos rfl, List.nodup_cons]
      refine ⟨?_, preorderListT_nodup_aux k ih cs hdcs hnames.1 hnames.2 q⟩
      intro hq
      rcases preorderListT_prefix hq with ⟨c, hc, hpre⟩
      have h2 := hpre.length_le
      simp at h2

/-- A tree with a directory `a` holding an entry `loop`, plus a
link-resolution function sending `a/loop` back to the root — a
self-referential symbolic link producing a canonical ancestor. -/
def cycleTree : FsTree :=
  .node "" true [.node "a" true [.node "loop" true []]]

def cycleRp (p : List String) : List String :=
  if p = ["a", "loop"] then [] else p

/-- C9: over an alias-free finite tree (`realpath` the identity, no
two siblings sharing a name) the default walk succeeds and yields
exactly the depth-first pre-order enumeration of the subtree —
children in listing order, every node before its descendants, no node
repeated; and when link resolution maps a recursively produced
descendant onto a canonical ancestor of the node being descended from
(the `a/loop` self-referential link of `cycleTree`), the walk fails
with the link-resolution cycle error. -/
theorem walk_preorder_and_cycle (t : FsTree) (fuel : Nat)
    (h1 : nodupNames t = true) (h2 : depthT t ≤ fuel) :
    walkGo (treeOps t (fun z => z)) none fuel [] = .ok (preorderT t [])
    ∧ (preorderT t []).Nodup
    ∧ walkGo (treeOps cycleTree cycleRp) none 10 [] = .error .cycle := by
  exact ⟨walkGo_eq_preorder t fuel [] t rfl h1 h2,
    preorderT_nodup_aux (depthT t) t le_rfl h1 [], by decide⟩

/-- Witness for `walk_preorder_and_cycle` at a concrete two-node
tree. -/
theorem walk_preorder_and_cycle_witness :
    walkGo (treeOps (FsTree.node "r" true [FsTree.node "f" false []]) (fun z => z)) none 5 []
      = .ok [[], ["f"]]
    ∧ ([([] : List String), ["f"]] : List (List String)).Nodup := by
  have h := walk_preorder_and_cycle (FsTree.node "r" true [FsTree.node "f" false []]) 5
    (by decide) (by decide)
  refine ⟨?_, by decide⟩
  rw [h.1]
  decide
